import Mathlib

/-!
Verification of the syncenv data pipeline: the cryptor (AES-256-GCM envelope
handling from internal/crypto/crypto.go), the archiver
(internal/archive/archive.go), the sync pipeline helpers (internal/cli),
and storage key derivation (internal/storage/storage.go).

Bytes are modelled as `List Nat`; text as `List Char`.  Randomness is
modelled as an explicit oracle `Nat → Nat` supplying the nonce bytes.
-/

namespace Syncenv

/-- Injective encoding of a list of naturals into a single natural number,
used by the idealized authenticated-encryption model below. -/
def encodeL : List Nat → Nat
  | [] => 0
  | x :: xs => Nat.pair x (encodeL xs) + 1

theorem encodeL_injective : ∀ {l1 l2 : List Nat}, encodeL l1 = encodeL l2 → l1 = l2
  | [], [], _ => rfl
  | [], _ :: _, h => by simp [encodeL] at h
  | _ :: _, [], h => by simp [encodeL] at h
  | a :: l1, b :: l2, h => by
    simp only [encodeL, Nat.add_right_cancel_iff, Nat.pair_eq_pair] at h
    obtain ⟨h1, h2⟩ := h
    rw [h1, encodeL_injective h2]

/-- Modelled from the spec: the keystream of Go's `crypto/cipher` GCM
(counter mode over the AES block cipher) is outside this repository; the
spec (§4.2) only requires an authenticated symmetric cipher, so the
keystream is modelled as an arbitrary byte-valued function of key, nonce
and position. -/
def ksByte (key nonce : List Nat) (i : Nat) : Nat :=
  Nat.pair (encodeL key) (Nat.pair (encodeL nonce) i)

/-- Counter-mode XOR of a byte sequence against a keystream starting at a
given counter position. -/
def ctrXor (f : Nat → Nat) : Nat → List Nat → List Nat
  | _, [] => []
  | i, b :: bs => (b ^^^ f i) :: ctrXor f (i + 1) bs

theorem ctrXor_length (f : Nat → Nat) : ∀ (i : Nat) (l : List Nat),
    (ctrXor f i l).length = l.length
  | _, [] => rfl
  | i, _ :: bs => by simp [ctrXor, ctrXor_length f (i + 1) bs]

theorem ctrXor_ctrXor (f : Nat → Nat) : ∀ (i : Nat) (l : List Nat),
    ctrXor f i (ctrXor f i l) = l
  | _, [] => rfl
  | i, b :: bs => by
    simp [ctrXor, ctrXor_ctrXor f (i + 1) bs, Nat.xor_cancel_right]

/-- GCM nonce size used by Go's `cipher.NewGCM` (12 bytes). -/
def gcmNonceSize : Nat := 12

/-- GCM authentication-tag size (16 bytes of overhead). -/
def gcmTagSize : Nat := 16

/-- Modelled from the spec: the GHASH authentication tag of Go's
`crypto/cipher` GCM is outside this repository; the spec (§4.2) requires
that the tag authenticate the ciphertext under the key and nonce, so it
is modelled as a 16-byte value whose first component binds key, nonce and
ciphertext injectively. -/
def gcmTag (key nonce ct : List Nat) : List Nat :=
  Nat.pair (encodeL key) (Nat.pair (encodeL nonce) (encodeL ct)) ::
    List.replicate (gcmTagSize - 1) 0

theorem gcmTag_length (key nonce ct : List Nat) :
    (gcmTag key nonce ct).length = gcmTagSize := by
  simp [gcmTag, gcmTagSize]

theorem gcmTag_inj {key key2 nonce nonce2 ct ct2 : List Nat}
    (h : gcmTag key nonce ct = gcmTag key2 nonce2 ct2) :
    key = key2 ∧ nonce = nonce2 ∧ ct = ct2 := by
  simp only [gcmTag, List.cons.injEq, Nat.pair_eq_pair] at h
  exact ⟨encodeL_injective h.1.1, encodeL_injective h.1.2.1,
    encodeL_injective h.1.2.2⟩

/-- Modelled from the spec: `gcm.Seal(nil, nonce, plaintext, nil)` —
counter-mode ciphertext followed by the authentication tag. -/
def gcmSeal (key nonce pt : List Nat) : List Nat :=
  ctrXor (ksByte key nonce) 0 pt ++ gcmTag key nonce (ctrXor (ksByte key nonce) 0 pt)

theorem gcmSeal_length (key nonce pt : List Nat) :
    (gcmSeal key nonce pt).length = pt.length + gcmTagSize := by
  simp [gcmSeal, gcmTag_length, ctrXor_length]

/-- Modelled from the spec: `gcm.Open(nil, nonce, ciphertext, nil)` —
splits off the trailing tag, recomputes it, and decrypts only when the
tags agree (all-or-nothing authenticated decryption). -/
def gcmOpen (key nonce data : List Nat) : Option (List Nat) :=
  if data.length < gcmTagSize then none
  else if data.drop (data.length - gcmTagSize) =
      gcmTag key nonce (data.take (data.length - gcmTagSize)) then
    some (ctrXor (ksByte key nonce) 0 (data.take (data.length - gcmTagSize)))
  else none

/-- AES-256 key size from crypto.go (`KeySize = 32`). -/
def KeySize : Nat := 32

/-- Key lengths accepted by Go's `aes.NewCipher` (AES-128/192/256). -/
def validAesKeyLen (n : Nat) : Bool := n == 16 || n == 24 || n == 32

/-- Envelope produced by crypto.go `Encrypt` once the cipher is
constructed: 12 random nonce bytes drawn from the oracle, followed by the
sealed ciphertext-and-tag. -/
def encryptBytes (key : List Nat) (rand : Nat → Nat) (pt : List Nat) : List Nat :=
  (List.range gcmNonceSize).map rand ++ gcmSeal key ((List.range gcmNonceSize).map rand) pt

/-- crypto.go `Encrypt`: fails only when the key length is rejected by
`aes.NewCipher`; otherwise returns the nonce-prefixed envelope. -/
def Encrypt (key : List Nat) (rand : Nat → Nat) (pt : List Nat) : Option (List Nat) :=
  if validAesKeyLen key.length then some (encryptBytes key rand pt) else none

/-- crypto.go `Decrypt`: rejects bad key lengths, rejects envelopes
shorter than one nonce, then splits the nonce off and opens the rest. -/
def Decrypt (key env : List Nat) : Option (List Nat) :=
  if validAesKeyLen key.length then
    if env.length < gcmNonceSize then none
    else gcmOpen key (env.take gcmNonceSize) (env.drop gcmNonceSize)
  else none

theorem gcmOpen_gcmSeal (key nonce pt : List Nat) :
    gcmOpen key nonce (gcmSeal key nonce pt) = some pt := by
  have hct : (ctrXor (ksByte key nonce) 0 pt).length = pt.length := ctrXor_length _ _ _
  have hlen : (gcmSeal key nonce pt).length = pt.length + gcmTagSize := gcmSeal_length _ _ _
  have hsub : (gcmSeal key nonce pt).length - gcmTagSize = (ctrXor (ksByte key nonce) 0 pt).length := by
    rw [hlen, hct]
    omega
  unfold gcmOpen
  rw [if_neg (by omega)]
  simp only [hsub]
  rw [gcmSeal, List.take_left, List.drop_left, if_pos rfl, ctrXor_ctrXor]

theorem nonceBytes_length (rand : Nat → Nat) :
    ((List.range gcmNonceSize).map rand).length = gcmNonceSize := by
  simp

theorem encryptBytes_length (key : List Nat) (rand : Nat → Nat) (pt : List Nat) :
    (encryptBytes key rand pt).length = pt.length + gcmNonceSize + gcmTagSize := by
  simp [encryptBytes, gcmSeal_length]
  omega

theorem decrypt_nonce_seal (key nonce pt : List Nat)
    (hv : validAesKeyLen key.length = true) (hn : nonce.length = gcmNonceSize) :
    Decrypt key (nonce ++ gcmSeal key nonce pt) = some pt := by
  have hlen : (nonce ++ gcmSeal key nonce pt).length = pt.length + gcmNonceSize + gcmTagSize := by
    simp [gcmSeal_length, hn]
    omega
  unfold Decrypt
  rw [if_pos hv, if_neg (by omega), ← hn, List.take_left, List.drop_left, gcmOpen_gcmSeal]

theorem decrypt_encryptBytes (key : List Nat) (rand : Nat → Nat) (pt : List Nat)
    (hv : validAesKeyLen key.length = true) :
    Decrypt key (encryptBytes key rand pt) = some pt :=
  decrypt_nonce_seal key _ pt hv (nonceBytes_length rand)

theorem validAesKeyLen_32 {key : List Nat} (hk : key.length = 32) :
    validAesKeyLen key.length = true := by
  rw [hk]; rfl

/-- Claim C1: for every 32-byte AES key and every byte sequence (including
the empty one), encryption succeeds and decrypting the produced envelope
with the same key returns the original content. -/
theorem c1_encrypt_decrypt_roundtrip (key pt : List Nat) (rand : Nat → Nat)
    (hk : key.length = KeySize) :
    Encrypt key rand pt = some (encryptBytes key rand pt) ∧
    Decrypt key (encryptBytes key rand pt) = some pt := by
  have hv : validAesKeyLen key.length = true := validAesKeyLen_32 hk
  exact ⟨by rw [Encrypt, if_pos hv], decrypt_encryptBytes key rand pt hv⟩

/-- Witness for C1 at a concrete 32-byte key, a concrete nonce oracle and
the empty plaintext. -/
theorem c1_encrypt_decrypt_roundtrip_witness :
    Encrypt (List.range 32) (fun i => i + 7) [] =
      some (encryptBytes (List.range 32) (fun i => i + 7) []) ∧
    Decrypt (List.range 32) (encryptBytes (List.range 32) (fun i => i + 7) []) = some [] :=
  c1_encrypt_decrypt_roundtrip (List.range 32) [] (fun i => i + 7) (by decide)

theorem encryptBytes_getElem_nonce (key pt : List Nat) (rand : Nat → Nat) (i : Nat)
    (hi : i < gcmNonceSize) :
    (encryptBytes key rand pt)[i]? = some (rand i) := by
  unfold encryptBytes
  rw [List.getElem?_append_left (by simp [hi])]
  simp [List.getElem?_range hi]

/-- Claim C5: two Encrypt calls with identical plaintext and key whose
random oracles draw different nonce bytes produce different envelopes,
and both envelopes decrypt back to the plaintext under that key. -/
theorem c5_nonce_freshness (key pt : List Nat) (r1 r2 : Nat → Nat) (i : Nat)
    (hk : key.length = KeySize) (hi : i < gcmNonceSize) (hne : r1 i ≠ r2 i) :
    encryptBytes key r1 pt ≠ encryptBytes key r2 pt ∧
    Encrypt key r1 pt = some (encryptBytes key r1 pt) ∧
    Encrypt key r2 pt = some (encryptBytes key r2 pt) ∧
    Decrypt key (encryptBytes key r1 pt) = some pt ∧
    Decrypt key (encryptBytes key r2 pt) = some pt := by
  have hv : validAesKeyLen key.length = true := validAesKeyLen_32 hk
  refine ⟨?_, by rw [Encrypt, if_pos hv], by rw [Encrypt, if_pos hv],
    decrypt_encryptBytes key r1 pt hv, decrypt_encryptBytes key r2 pt hv⟩
  intro h
  have h2 : (encryptBytes key r1 pt)[i]? = (encryptBytes key r2 pt)[i]? := by rw [h]
  rw [encryptBytes_getElem_nonce key pt r1 i hi,
    encryptBytes_getElem_nonce key pt r2 i hi] at h2
  exact hne (Option.some_injective _ h2)

/-- Witness for C5 at a concrete key, plaintext and two oracles differing
at nonce position zero. -/
theorem c5_nonce_freshness_witness :
    encryptBytes (List.range 32) (fun _ => 0) [3] ≠ encryptBytes (List.range 32) (fun _ => 1) [3] ∧
    Encrypt (List.range 32) (fun _ => 0) [3] = some (encryptBytes (List.range 32) (fun _ => 0) [3]) ∧
    Encrypt (List.range 32) (fun _ => 1) [3] = some (encryptBytes (List.range 32) (fun _ => 1) [3]) ∧
    Decrypt (List.range 32) (encryptBytes (List.range 32) (fun _ => 0) [3]) = some [3] ∧
    Decrypt (List.range 32) (encryptBytes (List.range 32) (fun _ => 1) [3]) = some [3] :=
  c5_nonce_freshness (List.range 32) [3] (fun _ => 0) (fun _ => 1) 0
    (by decide) (by decide) (by decide)

theorem take_eq_of_agree {α : Type*} {l1 l2 : List α} {n : Nat}
    (h : ∀ i, i < n → l1[i]? = l2[i]?) : l1.take n = l2.take n := by
  apply List.ext_getElem?
  intro i
  rw [List.getElem?_take, List.getElem?_take]
  by_cases hi : i < n
  · rw [if_pos hi, if_pos hi, h i hi]
  · rw [if_neg hi, if_neg hi]

theorem drop_eq_of_agree {α : Type*} {l1 l2 : List α} {n : Nat}
    (h : ∀ i, n ≤ i → l1[i]? = l2[i]?) : l1.drop n = l2.drop n := by
  apply List.ext_getElem?
  intro i
  rw [List.getElem?_drop, List.getElem?_drop]
  exact h (n + i) (Nat.le_add_right n i)

theorem gcmOpen_wrong_key (key key2 nonce pt : List Nat) (hne : key2 ≠ key) :
    gcmOpen key2 nonce (gcmSeal key nonce pt) = none := by
  have hct : (ctrXor (ksByte key nonce) 0 pt).length = pt.length := ctrXor_length _ _ _
  have hsl : (gcmSeal key nonce pt).length = pt.length + gcmTagSize := gcmSeal_length _ _ _
  have hsub : (gcmSeal key nonce pt).length - gcmTagSize = (ctrXor (ksByte key nonce) 0 pt).length := by
    rw [hsl, hct]
    omega
  unfold gcmOpen
  rw [if_neg (by omega)]
  simp only [hsub]
  rw [gcmSeal, List.take_left, List.drop_left, if_neg]
  intro h
  exact hne (gcmTag_inj h).1.symm

theorem decrypt_wrong_key (key key2 nonce pt : List Nat)
    (hv2 : validAesKeyLen key2.length = true) (hn : nonce.length = gcmNonceSize)
    (hne : key2 ≠ key) :
    Decrypt key2 (nonce ++ gcmSeal key nonce pt) = none := by
  have hlen : (nonce ++ gcmSeal key nonce pt).length = pt.length + gcmNonceSize + gcmTagSize := by
    simp [gcmSeal_length, hn]
    omega
  unfold Decrypt
  rw [if_pos hv2, if_neg (by omega), ← hn, List.take_left, List.drop_left,
    gcmOpen_wrong_key key key2 nonce pt hne]

theorem tamper_single_byte (key nonce pt env2 : List Nat) (j : Nat)
    (hv : validAesKeyLen key.length = true) (hn : nonce.length = gcmNonceSize)
    (hlen : env2.length = (nonce ++ gcmSeal key nonce pt).length)
    (hdiff : env2[j]? ≠ (nonce ++ gcmSeal key nonce pt)[j]?)
    (hagree : ∀ i, i ≠ j → env2[i]? = (nonce ++ gcmSeal key nonce pt)[i]?) :
    Decrypt key env2 = none := by
  have h12 : gcmNonceSize = 12 := rfl
  have h16 : gcmTagSize = 16 := rfl
  have hn' : nonce.length = 12 := hn
  have hctlen : (ctrXor (ksByte key nonce) 0 pt).length = pt.length := ctrXor_length _ _ _
  have henvlen : (nonce ++ gcmSeal key nonce pt).length = pt.length + 28 := by
    rw [List.length_append, gcmSeal_length, hn', h16]
    omega
  have henv2len : env2.length = pt.length + 28 := by rw [hlen, henvlen]
  have hjlt : j < pt.length + 28 := by
    by_contra hj
    push_neg at hj
    exact hdiff (by rw [List.getElem?_eq_none (by omega), List.getElem?_eq_none (by omega)])
  have htakeE : (nonce ++ gcmSeal key nonce pt).take 12 = nonce := List.take_left' hn'
  have hdropE : (nonce ++ gcmSeal key nonce pt).drop 12 = gcmSeal key nonce pt := List.drop_left' hn'
  have hgt : ((nonce ++ gcmSeal key nonce pt).drop 12).take pt.length =
      ctrXor (ksByte key nonce) 0 pt := by
    rw [hdropE, gcmSeal, List.take_left' hctlen]
  have hgen : ((nonce ++ gcmSeal key nonce pt).drop 12).drop pt.length =
      gcmTag key nonce (ctrXor (ksByte key nonce) 0 pt) := by
    rw [hdropE, gcmSeal, List.drop_left' hctlen]
  unfold Decrypt
  rw [if_pos hv]
  simp only [gcmNonceSize, gcmTagSize]
  rw [if_neg (by omega)]
  unfold gcmOpen
  simp only [gcmTagSize]
  have hd2len : (env2.drop 12).length = pt.length + 16 := by
    rw [List.length_drop, henv2len]
    omega
  rw [if_neg (by omega)]
  have hsub : (env2.drop 12).length - 16 = pt.length := by
    rw [hd2len]
    omega
  rw [hsub, if_neg]
  intro hT
  rcases Nat.lt_or_ge j 12 with hj1 | hj1
  · -- the altered byte sits in the nonce region
    have hD2 : env2.drop 12 = (nonce ++ gcmSeal key nonce pt).drop 12 :=
      drop_eq_of_agree (fun i hi => hagree i (by omega))
    rw [hD2, hgt, hgen] at hT
    obtain ⟨-, hnN2, -⟩ := gcmTag_inj hT
    apply hdiff
    have e1 : (env2.take 12)[j]? = env2[j]? := by
      rw [List.getElem?_take, if_pos hj1]
    have e2 : ((nonce ++ gcmSeal key nonce pt).take 12)[j]? =
        (nonce ++ gcmSeal key nonce pt)[j]? := by
      rw [List.getElem?_take, if_pos hj1]
    rw [← e1, ← e2, htakeE, ← hnN2]
  · rcases Nat.lt_or_ge j (12 + pt.length) with hj2 | hj2
    · -- the altered byte sits in the ciphertext region
      have hN2E : env2.take 12 = (nonce ++ gcmSeal key nonce pt).take 12 :=
        take_eq_of_agree (fun i hi => hagree i (by omega))
      have hT2 : (env2.drop 12).drop pt.length =
          ((nonce ++ gcmSeal key nonce pt).drop 12).drop pt.length := by
        rw [List.drop_drop, List.drop_drop]
        exact drop_eq_of_agree (fun i hi => hagree i (by omega))
      rw [hN2E, htakeE, hT2, hgen] at hT
      obtain ⟨-, -, hctEq⟩ := gcmTag_inj hT
      apply hdiff
      have hjlt' : j - 12 < pt.length := by omega
      have a1 : ((env2.drop 12).take pt.length)[j - 12]? = env2[j]? := by
        rw [List.getElem?_take, if_pos hjlt', List.getElem?_drop]
        congr 1
        omega
      have a2 : (((nonce ++ gcmSeal key nonce pt).drop 12).take pt.length)[j - 12]? =
          (nonce ++ gcmSeal key nonce pt)[j]? := by
        rw [List.getElem?_take, if_pos hjlt', List.getElem?_drop]
        congr 1
        omega
      rw [← a1, ← a2, hgt, ← hctEq]
    · -- the altered byte sits in the tag region
      have hN2E : env2.take 12 = (nonce ++ gcmSeal key nonce pt).take 12 :=
        take_eq_of_agree (fun i hi => hagree i (by omega))
      have hC2E : (env2.drop 12).take pt.length =
          ((nonce ++ gcmSeal key nonce pt).drop 12).take pt.length := by
        apply take_eq_of_agree
        intro i hi
        rw [List.getElem?_drop, List.getElem?_drop]
        exact hagree (12 + i) (by omega)
      rw [hN2E, htakeE, hC2E, hgt] at hT
      apply hdiff
      have b1 : ((env2.drop 12).drop pt.length)[j - 12 - pt.length]? = env2[j]? := by
        rw [List.drop_drop, List.getElem?_drop]
        congr 1
        omega
      have b2 : (((nonce ++ gcmSeal key nonce pt).drop 12).drop pt.length)[j - 12 - pt.length]? =
          (nonce ++ gcmSeal key nonce pt)[j]? := by
        rw [List.drop_drop, List.getElem?_drop]
        congr 1
        omega
      rw [← b1, ← b2, hgen, ← hT]

theorem decrypt_some_characterization (key env pt : List Nat)
    (h : Decrypt key env = some pt) :
    ∃ nonce, nonce.length = gcmNonceSize ∧ env = nonce ++ gcmSeal key nonce pt := by
  unfold Decrypt at h
  by_cases hv : validAesKeyLen key.length = true
  · rw [if_pos hv] at h
    by_cases h12 : env.length < gcmNonceSize
    · rw [if_pos h12] at h
      exact absurd h (by simp)
    · rw [if_neg h12] at h
      unfold gcmOpen at h
      by_cases h16 : (env.drop gcmNonceSize).length < gcmTagSize
      · rw [if_pos h16] at h
        exact absurd h (by simp)
      · rw [if_neg h16] at h
        by_cases htag : (env.drop gcmNonceSize).drop ((env.drop gcmNonceSize).length - gcmTagSize) =
            gcmTag key (env.take gcmNonceSize)
              ((env.drop gcmNonceSize).take ((env.drop gcmNonceSize).length - gcmTagSize))
        · rw [if_pos htag] at h
          refine ⟨env.take gcmNonceSize, ?_, ?_⟩
          · rw [List.length_take]
            push_neg at h12
            omega
          · have hpt : pt = ctrXor (ksByte key (env.take gcmNonceSize)) 0
                ((env.drop gcmNonceSize).take ((env.drop gcmNonceSize).length - gcmTagSize)) := by
              injection h with h'
              exact h'.symm
            rw [hpt, gcmSeal, ctrXor_ctrXor, ← htag, List.take_append_drop,
              List.take_append_drop]
        · rw [if_neg htag] at h
          exact absurd h (by simp)
  · rw [if_neg hv] at h
    exact absurd h (by simp)

/-- Claim C3: decryption fails closed — it returns an error on any envelope
shorter than one nonce, on any key other than the one used to encrypt, and
on any single-byte alteration of a genuine envelope; and whenever it does
return a plaintext, the envelope is exactly a genuine seal of that
plaintext under the key (all-or-nothing, never unauthenticated). -/
theorem c3_decrypt_fails_closed (key : List Nat) (hk : key.length = KeySize) :
    (∀ env, env.length < gcmNonceSize → Decrypt key env = none) ∧
    (∀ (key2 : List Nat) (rand : Nat → Nat) (pt : List Nat),
      key2.length = KeySize → key2 ≠ key →
      Decrypt key2 (encryptBytes key rand pt) = none) ∧
    (∀ (rand : Nat → Nat) (pt env2 : List Nat) (j : Nat),
      env2.length = (encryptBytes key rand pt).length →
      env2[j]? ≠ (encryptBytes key rand pt)[j]? →
      (∀ i, i ≠ j → env2[i]? = (encryptBytes key rand pt)[i]?) →
      Decrypt key env2 = none) ∧
    (∀ env pt, Decrypt key env = some pt →
      ∃ nonce, nonce.length = gcmNonceSize ∧ env = nonce ++ gcmSeal key nonce pt) := by
  have hv : validAesKeyLen key.length = true := validAesKeyLen_32 hk
  refine ⟨?_, ?_, ?_, ?_⟩
  · intro env henv
    rw [Decrypt, if_pos hv, if_pos henv]
  · intro key2 rand pt hk2 hne
    exact decrypt_wrong_key key key2 _ pt (validAesKeyLen_32 hk2)
      (nonceBytes_length rand) hne
  · intro rand pt env2 j h1 h2 h3
    exact tamper_single_byte key _ pt env2 j hv (nonceBytes_length rand) h1 h2 h3
  · intro env pt h
    exact decrypt_some_characterization key env pt h

/-- Witness for C3 at a concrete 32-byte key: a too-short envelope is
rejected, and a different 32-byte key fails to decrypt a genuine
envelope. -/
theorem c3_decrypt_fails_closed_witness :
    Decrypt (List.range 32) [0, 1, 2] = none ∧
    Decrypt ((List.range 32).map (fun x => x + 1))
      (encryptBytes (List.range 32) (fun _ => 0) [9]) = none := by
  have h := c3_decrypt_fails_closed (List.range 32) (by decide)
  exact ⟨h.1 [0, 1, 2] (by decide),
    h.2.1 ((List.range 32).map (fun x => x + 1)) (fun _ => 0) [9] (by decide) (by decide)⟩

/-- Value of a single hex digit, as accepted by Go `encoding/hex`
(`0`-`9`, `a`-`f`, `A`-`F`). -/
def hexDigitVal (c : Char) : Option Nat :=
  if '0' ≤ c ∧ c ≤ '9' then some (c.toNat - '0'.toNat)
  else if 'a' ≤ c ∧ c ≤ 'f' then some (c.toNat - 'a'.toNat + 10)
  else if 'A' ≤ c ∧ c ≤ 'F' then some (c.toNat - 'A'.toNat + 10)
  else none

/-- Go `hex.DecodeString`: consumes hex digits two at a time; fails on an
odd-length input or a non-hex character. -/
def hexDecode : List Char → Option (List Nat)
  | [] => some []
  | [_] => none
  | c1 :: c2 :: rest =>
    match hexDigitVal c1, hexDigitVal c2, hexDecode rest with
    | some d1, some d2, some bs => some ((d1 * 16 + d2) :: bs)
    | _, _, _ => none

/-- crypto.go `DecodeKeyFromString`: hex-decode, then require exactly
`KeySize` (32) bytes. -/
def decodeKeyFromString (s : List Char) : Except String (List Nat) :=
  match hexDecode s with
  | none => .error "failed to decode encryption key"
  | some key => if key.length ≠ KeySize then .error "invalid key size" else .ok key

/-- Configuration fields of internal/config relevant to the pipeline:
the encryption toggle and hex key, and the managed file paths. -/
structure Config where
  encEnabled : Bool
  encKey : List Char
  envFile : List Char
  envFiles : List (List Char)

/-- config.go `GetEnvFiles`: the explicit list if non-empty, else the
single deprecated field, else the default `.env`. -/
def Config.getEnvFiles (c : Config) : List (List Char) :=
  if c.envFiles.length > 0 then c.envFiles
  else if c.envFile ≠ [] then [c.envFile]
  else [".env".data]

/-- cli `prepareData`: pass through when encryption is disabled; fail when
enabled without a key; otherwise decode the key and encrypt. -/
def prepareData (cfg : Config) (rand : Nat → Nat) (data : List Nat) : Except String (List Nat) :=
  if cfg.encEnabled = false then .ok data
  else if cfg.encKey = [] then .error "encryption is enabled but no key is configured"
  else
    match decodeKeyFromString cfg.encKey with
    | .error e => .error ("failed to decode encryption key: " ++ e)
    | .ok key =>
      match Encrypt key rand data with
      | none => .error "failed to encrypt data"
      | some enc => .ok enc

/-- cli `processData`: pass through when encryption is disabled or the key
is empty; otherwise decode the key and decrypt, falling back to the raw
downloaded bytes when decryption fails. -/
def processData (cfg : Config) (data : List Nat) : Except String (List Nat) :=
  if cfg.encEnabled = false ∨ cfg.encKey = [] then .ok data
  else
    match decodeKeyFromString cfg.encKey with
    | .error e => .error ("failed to decode encryption key: " ++ e)
    | .ok key =>
      match Decrypt key data with
      | none => .ok data
      | some pt => .ok pt

/-- Claim C4: during pull and diff, when encryption is enabled with a
configured key and decryption of the downloaded bytes fails, `processData`
returns the downloaded bytes unchanged instead of surfacing the error. -/
theorem c4_decrypt_failure_fallback (cfg : Config) (data key : List Nat)
    (h1 : cfg.encEnabled = true) (h2 : cfg.encKey ≠ [])
    (h3 : decodeKeyFromString cfg.encKey = .ok key)
    (h4 : Decrypt key data = none) :
    processData cfg data = .ok data := by
  have hcond : ¬(cfg.encEnabled = false ∨ cfg.encKey = []) := by
    rintro (hf | he)
    · rw [h1] at hf
      cases hf
    · exact h2 he
  unfold processData
  rw [if_neg hcond]
  simp only [h3, h4]

/-- Witness for C4: a config with a valid 64-hex-char key and an empty
download, which is shorter than a nonce and so fails decryption. -/
theorem c4_decrypt_failure_fallback_witness :
    processData ⟨true, List.replicate 64 'a', [], []⟩ [] = .ok [] :=
  c4_decrypt_failure_fallback ⟨true, List.replicate 64 'a', [], []⟩ []
    (List.replicate 32 170) rfl (by decide) rfl (by decide)

/-- Claim C10: with encryption enabled but an empty key string, push's
`prepareData` fails before any upload, while pull's `processData` returns
the downloaded bytes unchanged without error — the missing-key check is
asymmetric. -/
theorem c10_missing_key_asymmetry (cfg : Config) (rand : Nat → Nat) (data : List Nat)
    (h1 : cfg.encEnabled = true) (h2 : cfg.encKey = []) :
    prepareData cfg rand data = .error "encryption is enabled but no key is configured" ∧
    processData cfg data = .ok data := by
  constructor
  · unfold prepareData
    rw [if_neg (by rw [h1]; simp), if_pos h2]
  · unfold processData
    rw [if_pos (Or.inr h2)]

/-- Witness for C10 at a concrete enabled-but-keyless config. -/
theorem c10_missing_key_asymmetry_witness :
    prepareData ⟨true, [], [], []⟩ (fun _ => 0) [1, 2] =
      .error "encryption is enabled but no key is configured" ∧
    processData ⟨true, [], [], []⟩ [1, 2] = .ok [1, 2] :=
  c10_missing_key_asymmetry ⟨true, [], [], []⟩ (fun _ => 0) [1, 2] rfl rfl

/-- ASCII whitespace trimmed by Go `strings.TrimSpace` (the Unicode cases
beyond ASCII are not modelled). -/
def isSpaceChar (c : Char) : Bool :=
  c == ' ' || c == '\t' || c == '\n' || c == '\x0b' || c == '\x0c' || c == '\r'

def dropWhileSpace : List Char → List Char
  | [] => []
  | c :: cs => if isSpaceChar c then dropWhileSpace cs else c :: cs

/-- Go `strings.TrimSpace`: strip leading and trailing whitespace. -/
def trimChars (l : List Char) : List Char :=
  (dropWhileSpace (dropWhileSpace l).reverse).reverse

/-- Line splitting done by `bufio.Scanner` with `ScanLines`: split on
newline characters (carriage returns are absorbed by the subsequent
trimming; a trailing empty token is skipped as a blank line). -/
def splitLinesAux : List Char → List Char → List (List Char)
  | [], acc => [acc.reverse]
  | c :: cs, acc =>
    if c == '\n' then acc.reverse :: splitLinesAux cs []
    else splitLinesAux cs (c :: acc)

def splitLines (l : List Char) : List (List Char) := splitLinesAux l []

/-- Go `strings.SplitN(line, "=", 2)`: the part before the first `=` and
everything after it; `none` when the line has no `=`. -/
def splitFirstEq : List Char → Option (List Char × List Char)
  | [] => none
  | c :: cs =>
    if c == '=' then some ([], cs)
    else
      match splitFirstEq cs with
      | none => none
      | some (k, v) => some (c :: k, v)

/-- Go `strings.HasPrefix`. -/
def startsWithChars : List Char → List Char → Bool
  | _, [] => true
  | [], _ :: _ => false
  | c :: cs, p :: ps => c == p && startsWithChars cs ps

/-- Go `strings.HasSuffix`. -/
def endsWithChars (l suf : List Char) : Bool :=
  startsWithChars l.reverse suf.reverse

/-- Downloaded bytes interpreted as characters, one per byte. -/
def bytesToChars (l : List Nat) : List Char := l.map Char.ofNat

/-- Parsed KEY=VALUE environment mapping. -/
abbrev EnvMap := List (List Char × List Char)

/-- Go map assignment `envMap[key] = value`: the new binding replaces any
existing binding for the key. -/
def upsertEnv (k v : List Char) (m : EnvMap) : EnvMap :=
  (k, v) :: m.filter (fun p => !(p.1 == k))

/-- One iteration of the parseEnvFile scanner loop: trim the line, skip
blanks and comments, split on the first `=`, trim both sides, insert. -/
def parseEnvLineStep (m : EnvMap) (lineRaw : List Char) : EnvMap :=
  if trimChars lineRaw = [] then m
  else if startsWithChars (trimChars lineRaw) "#".data then m
  else
    match splitFirstEq (trimChars lineRaw) with
    | none => m
    | some (k, v) => upsertEnv (trimChars k) (trimChars v) m

/-- cli `parseEnvFile`: scan the content line by line, folding each line
into the map. -/
def parseEnvFile (data : List Nat) : EnvMap :=
  (splitLines (bytesToChars data)).foldl parseEnvLineStep []

/-- Follows the spec wording (§3 EnvMap): a line contributes an entry
exactly when, after trimming, it is non-blank, does not start with `#`,
and contains `=`; the entry is the first-`=` split with both sides
trimmed. -/
def lineEntrySpec (lineRaw : List Char) : Option (List Char × List Char) :=
  if trimChars lineRaw = [] then none
  else if startsWithChars (trimChars lineRaw) "#".data then none
  else
    match splitFirstEq (trimChars lineRaw) with
    | none => none
    | some (k, v) => some (trimChars k, trimChars v)

theorem parseEnvLineStep_eq_lineEntrySpec (m : EnvMap) (l : List Char) :
    parseEnvLineStep m l =
      match lineEntrySpec l with
      | none => m
      | some p => upsertEnv p.1 p.2 m := by
  unfold parseEnvLineStep lineEntrySpec
  by_cases h1 : trimChars l = []
  · rw [if_pos h1, if_pos h1]
  · rw [if_neg h1, if_neg h1]
    by_cases h2 : startsWithChars (trimChars l) "#".data = true
    · rw [if_pos h2, if_pos h2]
    · rw [if_neg h2, if_neg h2]
      cases h3 : splitFirstEq (trimChars l) with
      | none => simp only [h3]
      | some p => simp only [h3]

theorem foldl_parseEnv_spec (ls : List (List Char)) : ∀ (m : EnvMap),
    ls.foldl parseEnvLineStep m =
      (ls.filterMap lineEntrySpec).foldl (fun m p => upsertEnv p.1 p.2 m) m := by
  induction ls with
  | nil => intro m; rfl
  | cons l ls ih =>
    intro m
    rw [List.foldl_cons, parseEnvLineStep_eq_lineEntrySpec m l, List.filterMap_cons]
    cases h : lineEntrySpec l with
    | none => simp only; exact ih m
    | some p =>
      simp only [List.foldl_cons]
      exact ih (upsertEnv p.1 p.2 m)

/-- Claim C7: for every input byte sequence, the env parser equals the
spec-worded description — blank and `#` lines and lines without `=`
contribute nothing, and every other line is split on the first `=` with
both sides trimmed before insertion. -/
theorem c7_parse_env_file (data : List Nat) :
    parseEnvFile data =
      ((splitLines (bytesToChars data)).filterMap lineEntrySpec).foldl
        (fun m p => upsertEnv p.1 p.2 m) [] :=
  foldl_parseEnv_spec (splitLines (bytesToChars data)) []

def optOr {α : Type*} (a b : Option α) : Option α :=
  match a with
  | some x => some x
  | none => b

theorem optOr_none_right {α : Type*} (a : Option α) : optOr a none = a := by
  cases a <;> rfl

theorem lookup_filter_ne (k k' : List Char) (m : EnvMap) (h : ¬ k' = k) :
    List.lookup k' (m.filter (fun p => !(p.1 == k))) = List.lookup k' m := by
  induction m with
  | nil => rfl
  | cons a tl ih =>
    obtain ⟨a1, a2⟩ := a
    by_cases ha : a1 = k
    · have hcond : (!((a1, a2).1 == k)) = false := by simp [ha]
      have hk' : (k' == a1) = false := by
        rw [beq_eq_false_iff_ne]
        intro hEq
        exact h (hEq.trans ha)
      rw [List.filter_cons, hcond, if_neg (by simp), ih, List.lookup, hk']
    · have hcond : (!((a1, a2).1 == k)) = true := by simp [ha]
      rw [List.filter_cons, hcond, if_pos rfl, List.lookup, List.lookup]
      cases hk : k' == a1 with
      | false => exact ih
      | true => rfl

theorem lookup_upsert (k k' v : List Char) (m : EnvMap) :
    List.lookup k' (upsertEnv k v m) =
      if k' = k then some v else List.lookup k' m := by
  unfold upsertEnv
  by_cases h : k' = k
  · rw [if_pos h, List.lookup, beq_iff_eq.mpr h]
  · rw [if_neg h, List.lookup, beq_eq_false_iff_ne.mpr h]
    exact lookup_filter_ne k k' m h

theorem lookup_eq_none_of_not_mem_keys (k : List Char) (m : EnvMap)
    (h : k ∉ m.map Prod.fst) : List.lookup k m = none := by
  induction m with
  | nil => rfl
  | cons a tl ih =>
    obtain ⟨a1, a2⟩ := a
    simp only [List.map_cons, List.mem_cons] at h
    push_neg at h
    rw [List.lookup, beq_eq_false_iff_ne.mpr h.1]
    exact ih h.2

/-- cli `diffEnvMaps` first loop: iterate over the new map, recording keys
absent from the old map as added and keys present with a different value
as changed (formatted "old -> new"). -/
def diffAddedChanged (oldMap : EnvMap) : EnvMap → EnvMap × EnvMap → EnvMap × EnvMap
  | [], acc => acc
  | p :: rest, acc =>
    match List.lookup p.1 oldMap with
    | some o =>
      if o = p.2 then diffAddedChanged oldMap rest acc
      else diffAddedChanged oldMap rest
        (acc.1, upsertEnv p.1 (o ++ " -> ".data ++ p.2) acc.2)
    | none => diffAddedChanged oldMap rest (upsertEnv p.1 p.2 acc.1, acc.2)

/-- cli `diffEnvMaps` second loop: iterate over the old map, recording
keys absent from the new map as removed. -/
def diffRemoved (newMap : EnvMap) : EnvMap → EnvMap → EnvMap
  | [], acc => acc
  | p :: rest, acc =>
    match List.lookup p.1 newMap with
    | some _ => diffRemoved newMap rest acc
    | none => diffRemoved newMap rest (upsertEnv p.1 p.2 acc)

/-- cli `diffEnvMaps`: the (added, removed, changed) triple. -/
def diffEnvMaps (oldMap newMap : EnvMap) : EnvMap × EnvMap × EnvMap :=
  ((diffAddedChanged oldMap newMap ([], [])).1,
    diffRemoved newMap oldMap [],
    (diffAddedChanged oldMap newMap ([], [])).2)

theorem lookup_diffAddedChanged_fst (oldMap : EnvMap) (k : List Char) :
    ∀ (newMap : EnvMap) (acc : EnvMap × EnvMap),
      (newMap.map Prod.fst).Nodup →
      List.lookup k (diffAddedChanged oldMap newMap acc).1 =
        optOr (if (List.lookup k oldMap).isNone then List.lookup k newMap else none)
          (List.lookup k acc.1)
  | [], acc, _ => by
    simp [diffAddedChanged, optOr, ite_self]
  | p :: rest, acc, hnd => by
    obtain ⟨p1, p2⟩ := p
    simp only [List.map_cons, List.nodup_cons] at hnd
    obtain ⟨hp1, hrest⟩ := hnd
    rw [diffAddedChanged]
    cases ho : List.lookup (p1, p2).1 oldMap with
    | some o =>
      dsimp only
      have hcont : List.lookup k (diffAddedChanged oldMap rest acc).1 =
          optOr (if (List.lookup k oldMap).isNone then List.lookup k ((p1, p2) :: rest)
            else none) (List.lookup k acc.1) := by
        rw [lookup_diffAddedChanged_fst oldMap k rest acc hrest]
        congr 1
        by_cases hk : k = p1
        · subst hk
          rw [ho]
          simp
        · rw [List.lookup, beq_eq_false_iff_ne.mpr hk]
      by_cases hov : o = p2
      · rw [if_pos hov]
        exact hcont
      · rw [if_neg hov]
        rw [lookup_diffAddedChanged_fst oldMap k rest
          (acc.1, upsertEnv p1 (o ++ " -> ".data ++ p2) acc.2) hrest]
        rw [lookup_diffAddedChanged_fst oldMap k rest acc hrest] at hcont
        exact hcont
    | none =>
      dsimp only
      rw [lookup_diffAddedChanged_fst oldMap k rest (upsertEnv p1 p2 acc.1, acc.2) hrest]
      by_cases hk : k = p1
      · subst hk
        have hrestnone : List.lookup k rest = none :=
          lookup_eq_none_of_not_mem_keys k rest hp1
        rw [ho, lookup_upsert, if_pos rfl, hrestnone, List.lookup, BEq.refl]
        simp [optOr]
      · rw [lookup_upsert, if_neg hk, List.lookup, beq_eq_false_iff_ne.mpr hk]

theorem lookup_diffAddedChanged_snd (oldMap : EnvMap) (k : List Char) :
    ∀ (newMap : EnvMap) (acc : EnvMap × EnvMap),
      (newMap.map Prod.fst).Nodup →
      List.lookup k (diffAddedChanged oldMap newMap acc).2 =
        optOr (match List.lookup k oldMap, List.lookup k newMap with
            | some o, some n => if o = n then none else some (o ++ " -> ".data ++ n)
            | _, _ => none)
          (List.lookup k acc.2)
  | [], acc, _ => by
    cases hm : List.lookup k oldMap <;>
      simp [diffAddedChanged, optOr, hm]
  | p :: rest, acc, hnd => by
    obtain ⟨p1, p2⟩ := p
    simp only [List.map_cons, List.nodup_cons] at hnd
    obtain ⟨hp1, hrest⟩ := hnd
    rw [diffAddedChanged]
    cases ho : List.lookup (p1, p2).1 oldMap with
    | some o =>
      dsimp only
      by_cases hov : o = p2
      · rw [if_pos hov]
        rw [lookup_diffAddedChanged_snd oldMap k rest acc hrest]
        congr 1
        by_cases hk : k = p1
        · subst hk
          have hrestnone : List.lookup k rest = none :=
            lookup_eq_none_of_not_mem_keys k rest hp1
          rw [ho, hrestnone, List.lookup, BEq.refl]
          subst hov
          simp
        · rw [List.lookup, beq_eq_false_iff_ne.mpr hk]
      · rw [if_neg hov]
        rw [lookup_diffAddedChanged_snd oldMap k rest
          (acc.1, upsertEnv p1 (o ++ " -> ".data ++ p2) acc.2) hrest]
        by_cases hk : k = p1
        · subst hk
          have hrestnone : List.lookup k rest = none :=
            lookup_eq_none_of_not_mem_keys k rest hp1
          rw [ho, hrestnone, List.lookup, BEq.refl, lookup_upsert, if_pos rfl]
          simp [optOr, hov]
        · rw [lookup_upsert, if_neg hk, List.lookup, beq_eq_false_iff_ne.mpr hk]
    | none =>
      dsimp only
      rw [lookup_diffAddedChanged_snd oldMap k rest (upsertEnv p1 p2 acc.1, acc.2) hrest]
      congr 1
      by_cases hk : k = p1
      · subst hk
        rw [ho]
      · rw [List.lookup, beq_eq_false_iff_ne.mpr hk]

theorem lookup_diffRemoved (newMap : EnvMap) (k : List Char) :
    ∀ (oldMap : EnvMap) (acc : EnvMap),
      (oldMap.map Prod.fst).Nodup →
      List.lookup k (diffRemoved newMap oldMap acc) =
        optOr (if (List.lookup k newMap).isNone then List.lookup k oldMap else none)
          (List.lookup k acc)
  | [], acc, _ => by
    simp [diffRemoved, optOr, ite_self]
  | p :: rest, acc, hnd => by
    obtain ⟨p1, p2⟩ := p
    simp only [List.map_cons, List.nodup_cons] at hnd
    obtain ⟨hp1, hrest⟩ := hnd
    rw [diffRemoved]
    cases ho : List.lookup (p1, p2).1 newMap with
    | some o =>
      dsimp only
      rw [lookup_diffRemoved newMap k rest acc hrest]
      congr 1
      by_cases hk : k = p1
      · subst hk
        rw [ho]
        simp
      · rw [List.lookup, beq_eq_false_iff_ne.mpr hk]
    | none =>
      dsimp only
      rw [lookup_diffRemoved newMap k rest (upsertEnv p1 p2 acc) hrest]
      by_cases hk : k = p1
      · subst hk
        have hrestnone : List.lookup k rest = none :=
          lookup_eq_none_of_not_mem_keys k rest hp1
        rw [ho, lookup_upsert, if_pos rfl, hrestnone, List.lookup, BEq.refl]
        simp [optOr]
      · rw [lookup_upsert, if_neg hk, List.lookup, beq_eq_false_iff_ne.mpr hk]

/-- Claim C6: for maps with unique keys the differ reports exactly — keys
only in the new map as added with the new value, keys only in the old map
as removed with the old value, keys in both with different values as
changed reporting both, and omits keys in both with equal values. -/
theorem c6_diff_env_maps (oldMap newMap : EnvMap)
    (hold : (oldMap.map Prod.fst).Nodup) (hnew : (newMap.map Prod.fst).Nodup)
    (k : List Char) :
    List.lookup k (diffEnvMaps oldMap newMap).1 =
      (if (List.lookup k oldMap).isNone then List.lookup k newMap else none) ∧
    List.lookup k (diffEnvMaps oldMap newMap).2.1 =
      (if (List.lookup k newMap).isNone then List.lookup k oldMap else none) ∧
    List.lookup k (diffEnvMaps oldMap newMap).2.2 =
      (match List.lookup k oldMap, List.lookup k newMap with
        | some o, some n => if o = n then none else some (o ++ " -> ".data ++ n)
        | _, _ => none) := by
  unfold diffEnvMaps
  refine ⟨?_, ?_, ?_⟩
  · rw [lookup_diffAddedChanged_fst oldMap k newMap ([], []) hnew]
    exact optOr_none_right _
  · rw [lookup_diffRemoved newMap k oldMap [] hold]
    exact optOr_none_right _
  · rw [lookup_diffAddedChanged_snd oldMap k newMap ([], []) hnew]
    exact optOr_none_right _

/-- Witness for C6 on the spec's own example: old is A:1,B:2 and new is
B:2,C:3, so C is added with value 3, A is removed with value 1, and B is
omitted from changed. -/
theorem c6_diff_env_maps_witness :
    List.lookup "C".data
      (diffEnvMaps [("A".data, "1".data), ("B".data, "2".data)]
        [("B".data, "2".data), ("C".data, "3".data)]).1 = some "3".data ∧
    List.lookup "A".data
      (diffEnvMaps [("A".data, "1".data), ("B".data, "2".data)]
        [("B".data, "2".data), ("C".data, "3".data)]).2.1 = some "1".data ∧
    List.lookup "B".data
      (diffEnvMaps [("A".data, "1".data), ("B".data, "2".data)]
        [("B".data, "2".data), ("C".data, "3".data)]).2.2 = none := by
  refine ⟨?_, ?_, ?_⟩
  · exact (c6_diff_env_maps [("A".data, "1".data), ("B".data, "2".data)]
      [("B".data, "2".data), ("C".data, "3".data)] (by decide) (by decide)
      "C".data).1.trans (by decide)
  · exact (c6_diff_env_maps [("A".data, "1".data), ("B".data, "2".data)]
      [("B".data, "2".data), ("C".data, "3".data)] (by decide) (by decide)
      "A".data).2.1.trans (by decide)
  · exact (c6_diff_env_maps [("A".data, "1".data), ("B".data, "2".data)]
      [("B".data, "2".data), ("C".data, "3".data)] (by decide) (by decide)
      "B".data).2.2.trans (by decide)

/-- archive.go `FileEntry`: relative path, content bytes, and permission
mode. -/
structure FileEntry where
  path : List Char
  data : List Nat
  mode : Nat
deriving DecidableEq

/-- Modelled from the spec: the tar+gzip container of Go's standard
library is outside this repository, and the spec (§6) requires only a
sequentially-readable container of (path, mode, size, content) records
with round-trip fidelity, not a bit-exact format.  Numbers are stored in
unary so the decoder is structurally recursive. -/
def encodeNat (n : Nat) : List Nat := List.replicate n 1 ++ [0]

def parseNat : List Nat → Option (Nat × List Nat)
  | [] => none
  | b :: rest =>
    match b with
    | 0 => some (0, rest)
    | 1 =>
      match parseNat rest with
      | none => none
      | some (n, r) => some (n + 1, r)
    | _ + 2 => none

/-- One serialized (path, mode, size, content) record. -/
def serializeRecord (e : FileEntry) : List Nat :=
  encodeNat e.path.length ++ e.path.map Char.toNat ++ encodeNat e.mode ++
    encodeNat e.data.length ++ e.data

def serializeEntries : List FileEntry → List Nat
  | [] => []
  | e :: rest => serializeRecord e ++ serializeEntries rest

/-- Decoder for one record: header fields, then exactly `size` content
bytes; fails on truncation, mirroring archive.go Extract's header and
`io.ReadFull` error paths. -/
def decodeRecord (l : List Nat) : Option (FileEntry × List Nat) :=
  match parseNat l with
  | none => none
  | some (plen, r1) =>
    if plen ≤ r1.length then
      match parseNat (r1.drop plen) with
      | none => none
      | some (mode, r2) =>
        match parseNat r2 with
        | none => none
        | some (size, r3) =>
          if size ≤ r3.length then
            some (⟨(r1.take plen).map Char.ofNat, r3.take size, mode⟩, r3.drop size)
          else none
    else none

/-- Record loop of archive.go `Extract`, reading records until the input
is exhausted; the fuel argument makes the recursion structural and is
initialized to the blob length, which bounds the record count. -/
def decodeEntriesAux : Nat → List Nat → Option (List FileEntry)
  | _, [] => some []
  | 0, _ :: _ => none
  | fuel + 1, x :: xs =>
    match decodeRecord (x :: xs) with
    | none => none
    | some (e, rest) =>
      match decodeEntriesAux fuel rest with
      | none => none
      | some es => some (e :: es)

/-- archive.go `Extract`: decode all records of the blob. -/
def Extract (blob : List Nat) : Option (List FileEntry) :=
  decodeEntriesAux blob.length blob

/-- archive.go `Create`: read each path's content and mode from the
filesystem (modelled as a partial map from paths), aborting on the first
unreadable path, and serialize the records in the given order. -/
def Create (fs : List Char → Option (List Nat × Nat)) : List (List Char) → Option (List Nat)
  | [] => some []
  | f :: rest =>
    match fs f with
    | none => none
    | some dm =>
      match Create fs rest with
      | none => none
      | some tail => some (serializeRecord ⟨f, dm.1, dm.2⟩ ++ tail)

theorem parseNat_encodeNat (n : Nat) (rest : List Nat) :
    parseNat (encodeNat n ++ rest) = some (n, rest) := by
  induction n with
  | zero => rfl
  | succ n ih =>
    have h : encodeNat (n + 1) ++ rest = 1 :: (encodeNat n ++ rest) := by
      simp [encodeNat, List.replicate_succ]
    rw [h, parseNat]
    rw [ih]

theorem decodeRecord_serializeRecord (e : FileEntry) (rest : List Nat) :
    decodeRecord (serializeRecord e ++ rest) = some (e, rest) := by
  have hmaplen : (e.path.map Char.toNat).length = e.path.length := by simp
  unfold serializeRecord decodeRecord
  rw [List.append_assoc, List.append_assoc, List.append_assoc, List.append_assoc,
    parseNat_encodeNat]
  dsimp only
  rw [if_pos (by simp)]
  rw [List.take_left' hmaplen, List.drop_left' hmaplen, parseNat_encodeNat]
  dsimp only
  rw [parseNat_encodeNat]
  dsimp only
  rw [if_pos (by rw [List.length_append]; omega), List.take_left, List.drop_left]
  have hpath : (e.path.map Char.toNat).map Char.ofNat = e.path := by
    rw [List.map_map]
    simp [Function.comp_def, Char.ofNat_toNat]
  rw [hpath]

theorem serializeRecord_length_pos (e : FileEntry) : 1 ≤ (serializeRecord e).length := by
  simp [serializeRecord, encodeNat]
  omega

theorem decodeEntriesAux_serializeEntries :
    ∀ (entries : List FileEntry) (fuel : Nat),
      (serializeEntries entries).length ≤ fuel →
      decodeEntriesAux fuel (serializeEntries entries) = some entries
  | [], fuel, _ => by cases fuel <;> rfl
  | e :: tl, fuel, hf => by
    have hrec : serializeEntries (e :: tl) = serializeRecord e ++ serializeEntries tl := rfl
    have hlen1 := serializeRecord_length_pos e
    obtain ⟨x, xs, hx⟩ : ∃ x xs, serializeRecord e ++ serializeEntries tl = x :: xs := by
      cases hsr : serializeRecord e with
      | nil => rw [hsr] at hlen1; simp at hlen1
      | cons a as => exact ⟨a, as ++ serializeEntries tl, by simp [hsr]⟩
    rw [hrec] at hf
    rw [List.length_append] at hf
    cases fuel with
    | zero => omega
    | succ fuel =>
      rw [hrec, hx, decodeEntriesAux, ← hx, decodeRecord_serializeRecord]
      dsimp only
      rw [decodeEntriesAux_serializeEntries tl fuel (by omega)]

theorem Extract_serializeEntries (entries : List FileEntry) :
    Extract (serializeEntries entries) = some entries :=
  decodeEntriesAux_serializeEntries entries _ le_rfl

theorem Create_eq_serializeEntries (fs : List Char → Option (List Nat × Nat)) :
    ∀ (files : List (List Char)), (∀ f ∈ files, (fs f).isSome) →
      Create fs files = some (serializeEntries (files.map (fun f =>
        ⟨f, ((fs f).getD ([], 0)).1, ((fs f).getD ([], 0)).2⟩)))
  | [], _ => rfl
  | f :: rest, h => by
    obtain ⟨dm, hdm⟩ := Option.isSome_iff_exists.mp (h f (List.mem_cons_self f rest))
    rw [Create, hdm]
    dsimp only
    rw [Create_eq_serializeEntries fs rest (fun g hg => h g (List.mem_cons_of_mem f hg))]
    dsimp only
    congr 1
    rw [List.map_cons]
    show serializeRecord ⟨f, dm.1, dm.2⟩ ++ _ = serializeRecord ⟨f, _, _⟩ ++ _
    rw [hdm]
    rfl

/-- Claim C2: for distinct readable paths, extracting a created archive
returns one entry per input path, in order, with path, content and mode
reproduced exactly. -/
theorem c2_archive_roundtrip (fs : List Char → Option (List Nat × Nat))
    (files : List (List Char)) (hdist : files.Nodup)
    (hread : ∀ f ∈ files, (fs f).isSome) :
    ∃ blob, Create fs files = some blob ∧
      Extract blob = some (files.map (fun f =>
        ⟨f, ((fs f).getD ([], 0)).1, ((fs f).getD ([], 0)).2⟩)) :=
  ⟨_, Create_eq_serializeEntries fs files hread, Extract_serializeEntries _⟩

/-- Two-file filesystem used by the archive round-trip witness. -/
def fsEx : List Char → Option (List Nat × Nat) := fun p =>
  if p = ".env".data then some ([65, 61, 49, 10], 420)
  else if p = "b.env".data then some ([66, 61, 50], 384)
  else none

/-- Witness for C2 on a concrete two-file filesystem. -/
theorem c2_archive_roundtrip_witness :
    ∃ blob, Create fsEx [".env".data, "b.env".data] = some blob ∧
      Extract blob = some ([".env".data, "b.env".data].map (fun f =>
        ⟨f, ((fsEx f).getD ([], 0)).1, ((fsEx f).getD ([], 0)).2⟩)) :=
  c2_archive_roundtrip fsEx [".env".data, "b.env".data] (by decide) (by decide)

/-- Merge of one parsed file's env map into the accumulated map
(`for key, value := range fileEnv { envMap[key] = value }`). -/
def mergeEnv (m fe : EnvMap) : EnvMap :=
  fe.foldl (fun acc p => upsertEnv p.1 p.2 acc) m

/-- cli `parseDataToEnvMap`: with a single configured file the data is
parsed directly; otherwise the data is extracted as an archive and every
entry whose path ends with `.env` or starts with `.env` is parsed and
merged; the remaining entries are skipped. -/
def parseDataToEnvMap (cfg : Config) (data : List Nat) : Except String EnvMap :=
  if cfg.getEnvFiles.length = 1 then .ok (parseEnvFile data)
  else
    match Extract data with
    | none => .error "failed to extract archive"
    | some entries =>
      .ok (entries.foldl (fun m e =>
        if !(endsWithChars e.path ".env".data) && !(startsWithChars e.path ".env".data) then m
        else mergeEnv m (parseEnvFile e.data)) [])

theorem foldl_skip_filter {α β : Type*} (p : α → Bool) (g : β → α → β) :
    ∀ (l : List α) (b : β),
      l.foldl (fun m e => if !(p e) then m else g m e) b = (l.filter p).foldl g b
  | [], _ => rfl
  | e :: l, b => by
    rw [List.foldl_cons, List.filter_cons]
    cases hp : p e with
    | false =>
      rw [if_pos (by simp [hp]), if_neg (by simp [hp])]
      exact foldl_skip_filter p g l b
    | true =>
      rw [if_neg (by simp [hp]), if_pos (by simp [hp]), List.foldl_cons]
      exact foldl_skip_filter p g l (g b e)

theorem nodupKeys_upsert (k v : List Char) (m : EnvMap)
    (h : (m.map Prod.fst).Nodup) : ((upsertEnv k v m).map Prod.fst).Nodup := by
  unfold upsertEnv
  rw [List.map_cons, List.nodup_cons]
  constructor
  · intro hmem
    obtain ⟨p, hp, hpk⟩ := List.mem_map.mp hmem
    have := List.of_mem_filter hp
    simp only [Bool.not_eq_true'] at this
    rw [beq_eq_false_iff_ne] at this
    exact this hpk
  · exact (List.Sublist.map Prod.fst (List.filter_sublist m)).nodup h

theorem nodupKeys_parseEnvLineStep (m : EnvMap) (l : List Char)
    (h : (m.map Prod.fst).Nodup) :
    ((parseEnvLineStep m l).map Prod.fst).Nodup := by
  unfold parseEnvLineStep
  by_cases h1 : trimChars l = []
  · rw [if_pos h1]; exact h
  · rw [if_neg h1]
    by_cases h2 : startsWithChars (trimChars l) "#".data = true
    · rw [if_pos h2]; exact h
    · rw [if_neg h2]
      cases h3 : splitFirstEq (trimChars l) with
      | none => exact h
      | some p => exact nodupKeys_upsert _ _ m h

theorem nodupKeys_foldl_parseEnv (ls : List (List Char)) : ∀ (m : EnvMap),
    (m.map Prod.fst).Nodup → ((ls.foldl parseEnvLineStep m).map Prod.fst).Nodup := by
  induction ls with
  | nil => intro m h; exact h
  | cons l ls ih =>
    intro m h
    rw [List.foldl_cons]
    exact ih _ (nodupKeys_parseEnvLineStep m l h)

theorem parseEnvFile_nodupKeys (bytes : List Nat) :
    ((parseEnvFile bytes).map Prod.fst).Nodup :=
  nodupKeys_foldl_parseEnv _ [] List.nodup_nil

theorem lookup_mergeEnv (k : List Char) : ∀ (fe m : EnvMap),
    (fe.map Prod.fst).Nodup →
    List.lookup k (mergeEnv m fe) = optOr (List.lookup k fe) (List.lookup k m)
  | [], m, _ => by simp [mergeEnv, optOr]
  | p :: rest, m, hnd => by
    obtain ⟨p1, p2⟩ := p
    simp only [List.map_cons, List.nodup_cons] at hnd
    obtain ⟨hp1, hrest⟩ := hnd
    show List.lookup k (mergeEnv (upsertEnv p1 p2 m) rest) = _
    rw [lookup_mergeEnv k rest (upsertEnv p1 p2 m) hrest]
    by_cases hk : k = p1
    · subst hk
      have hrestnone : List.lookup k rest = none :=
        lookup_eq_none_of_not_mem_keys k rest hp1
      rw [hrestnone, lookup_upsert, if_pos rfl, List.lookup, BEq.refl]
      rfl
    · rw [lookup_upsert, if_neg hk, List.lookup, beq_eq_false_iff_ne.mpr hk]

/-- Claim C8 (amended): during diff over a multi-file configuration,
exactly the archive entries whose path ends in `.env` or starts with
`.env` are parsed and merged key-by-key, with later entries overwriting
earlier ones on key collision; all other entries are skipped. -/
theorem c8_multi_file_merge (cfg : Config) (data : List Nat)
    (entries : List FileEntry)
    (hm : cfg.getEnvFiles.length ≠ 1) (he : Extract data = some entries) :
    parseDataToEnvMap cfg data = .ok
      ((entries.filter (fun e =>
        endsWithChars e.path ".env".data || startsWithChars e.path ".env".data)).foldl
        (fun m e => mergeEnv m (parseEnvFile e.data)) []) ∧
    ∀ (m : EnvMap) (bytes : List Nat) (k : List Char),
      List.lookup k (mergeEnv m (parseEnvFile bytes)) =
        optOr (List.lookup k (parseEnvFile bytes)) (List.lookup k m) := by
  constructor
  · unfold parseDataToEnvMap
    rw [if_neg hm, he]
    dsimp only
    congr 1
    have hcond : (fun (m : EnvMap) (e : FileEntry) =>
        if !(endsWithChars e.path ".env".data) && !(startsWithChars e.path ".env".data)
        then m else mergeEnv m (parseEnvFile e.data)) =
        (fun (m : EnvMap) (e : FileEntry) =>
          if !(endsWithChars e.path ".env".data || startsWithChars e.path ".env".data)
          then m else mergeEnv m (parseEnvFile e.data)) := by
      funext m e
      rw [Bool.not_or]
    rw [hcond]
    exact foldl_skip_filter _ _ entries []
  · intro m bytes k
    exact lookup_mergeEnv k (parseEnvFile bytes) m (parseEnvFile_nodupKeys bytes)

set_option maxRecDepth 20000 in
/-- Counterexample for C8 as stated: under a two-file configuration, the
archive entry `.env.local` does not end in `.env`, yet its contents are
parsed into the map rather than skipped. -/
theorem c8_counterexample :
    endsWithChars ".env.local".data ".env".data = false ∧
    parseDataToEnvMap ⟨false, [], [], ["a.env".data, "b.env".data]⟩
      (serializeEntries [⟨".env.local".data, [65, 61, 49], 420⟩]) =
      .ok [("A".data, "1".data)] ∧
    (Except.ok [("A".data, "1".data)] : Except String EnvMap) ≠ .ok [] := by
  refine ⟨by decide, rfl, ?_⟩
  intro h
  simp at h

set_option maxRecDepth 20000 in
/-- Witness for the amended C8 theorem at a concrete two-file
configuration and a concrete one-entry archive. -/
theorem c8_multi_file_merge_witness :
    parseDataToEnvMap ⟨false, [], [], ["a.env".data, "b.env".data]⟩
      (serializeEntries [⟨".env.local".data, [65, 61, 49], 420⟩]) = .ok
      (([⟨".env.local".data, [65, 61, 49], 420⟩].filter (fun (e : FileEntry) =>
        endsWithChars e.path ".env".data || startsWithChars e.path ".env".data)).foldl
        (fun m e => mergeEnv m (parseEnvFile e.data)) []) ∧
    ∀ (m : EnvMap) (bytes : List Nat) (k : List Char),
      List.lookup k (mergeEnv m (parseEnvFile bytes)) =
        optOr (List.lookup k (parseEnvFile bytes)) (List.lookup k m) :=
  c8_multi_file_merge ⟨false, [], [], ["a.env".data, "b.env".data]⟩
    (serializeEntries [⟨".env.local".data, [65, 61, 49], 420⟩])
    [⟨".env.local".data, [65, 61, 49], 420⟩] (by decide) rfl

/-- storage.go `BuildKey`: append `.env` to the tag, prefixed verbatim by
the configured prefix when one is set. -/
def BuildKey (pre tag : String) : String :=
  if pre = "" then tag ++ ".env" else pre ++ tag ++ ".env"

/-- Claim C9: the storage key is the prefix, tag and `.env` concatenated
with no separator inserted; with an empty prefix it is just the tag and
`.env`. -/
theorem c9_build_key (pre tag : String) :
    (pre = "" → BuildKey pre tag = tag ++ ".env") ∧
    (pre ≠ "" → BuildKey pre tag = pre ++ tag ++ ".env") := by
  constructor
  · intro h
    rw [BuildKey, if_pos h]
  · intro h
    rw [BuildKey, if_neg h]

/-- Witness for C9 on the three examples from the spec. -/
theorem c9_build_key_witness :
    BuildKey "" "v1.0.0" = "v1.0.0.env" ∧
    BuildKey "envs/" "v1.0.0" = "envs/v1.0.0.env" ∧
    BuildKey "prefix" "test" = "prefixtest.env" :=
  ⟨((c9_build_key "" "v1.0.0").1 rfl).trans (by decide),
    ((c9_build_key "envs/" "v1.0.0").2 (by decide)).trans (by decide),
    ((c9_build_key "prefix" "test").2 (by decide)).trans (by decide)⟩

end Syncenv
